import Mathlib

/-!
Verification of the subtitle-grouping core of AzureSpeechSubs
(`azure_speech_subs/synthesizer.py`).

The development embeds:

* `build_groups` — the Grouper: it folds a list of word-boundary tokens into
  subtitle groups, splitting after a token whose text ends in a split
  character.  Two layers are given: `build_groups` over tokens whose three
  fields are already resolved to values, and `build_groups_raw` over raw
  records carrying the two key-naming conventions (`Text`/`text`,
  `AudioOffset`/`audiooffset`, `Duration`/`duration`), with Python's
  `dict.get(k1) or dict.get(k2)` lookup and `TypeError` propagation made
  explicit.
* `save_subs` — the writer: its observable output, the composed SRT document
  string, is embedded as `composeDoc`; an SRT parser `parseDoc` (modelled from
  the spec, the repository ships none) states the round-trip property.
-/

/-- Characters stripped by Python's `str.strip()`: the `str.isspace()` set —
the six ASCII whitespace characters together with the other Unicode
whitespace code points (file/group/record separators, NEL, NBSP, Ogham space,
the U+2000 range, line/paragraph separators, NNBSP, MMSP, and the full-width
ideographic space U+3000 of the CJK texts this project targets). -/
def pyWhitespace (c : Char) : Bool :=
  c = ' ' || c = '\t' || c = '\n' || c = '\r' || c = '\x0b' || c = '\x0c' ||
  ('\x1c' ≤ c && c ≤ '\x1f') || c = '\x85' || c = '\xa0' || c = '\u1680' ||
  ('\u2000' ≤ c && c ≤ '\u200A') || c = '\u2028' || c = '\u2029' ||
  c = '\u202F' || c = '\u205F' || c = '\u3000'

/-- Python `str.strip()` on the character list of a string: drop whitespace
from the front, then from the back. -/
def stripChars (l : List Char) : List Char :=
  ((l.dropWhile pyWhitespace).reverse.dropWhile pyWhitespace).reverse

/-- Python `str.strip()`. -/
def pyStrip (s : String) : String :=
  String.mk (stripChars s.data)

/-- A word-boundary token after field lookup, as consumed by the loop of
`build_groups`: `text`, `offset` (from `AudioOffset`, milliseconds) and
`duration` (milliseconds). -/
structure Token where
  text : String
  offset : Nat
  duration : Nat
deriving Repr, DecidableEq

/-- A subtitle group, the dict `{"text": ..., "start": ..., "end": ...}`
appended to `groups` by `build_groups` (`end` is a Lean keyword, hence the
field name `end_ms`). -/
structure SubtitleGroup where
  text : String
  start : Nat
  end_ms : Nat
deriving Repr, DecidableEq

/-- The split test `text and text[-1] in split_characters`: the token text is
non-empty and its final character belongs to the split set. -/
def tokenSplits (split_characters : List Char) (text : String) : Bool :=
  match text.data.getLast? with
  | some c => split_characters.contains c
  | none => false

/-- The loop state of `build_groups`: groups built so far, `start_time`
(`none` models Python `None`), the accumulation buffer `current_sub`, and the
`offset`/`duration` of the last executed iteration (`none` before the loop
body has ever run — it models whether `offset`/`duration` are in `locals()`). -/
structure LoopState where
  groups : List SubtitleGroup
  start_time : Option Nat
  current_sub : String
  last_tok : Option (Nat × Nat)
deriving Repr, DecidableEq

/-- State on entry to the loop of `build_groups`. -/
def initState : LoopState :=
  ⟨[], none, "", none⟩

/-- One iteration of the loop of `build_groups`: capture `start_time` if unset,
append the token text to `current_sub`, and close the group when the token's
own text ends in a split character. -/
def stepTok (split_characters : List Char) (st : LoopState) (tok : Token) : LoopState :=
  let s := st.start_time.getD tok.offset
  let sub := st.current_sub ++ tok.text
  if tokenSplits split_characters tok.text then
    ⟨st.groups ++ [⟨pyStrip sub, s, tok.offset + tok.duration⟩], none, "",
      some (tok.offset, tok.duration)⟩
  else
    ⟨st.groups, some s, sub, some (tok.offset, tok.duration)⟩

/-- The code after the loop of `build_groups`: if the stripped buffer is
non-empty and a start time was captured, flush one final group, ending at the
last iteration's `offset + duration`, or at `start_time + 1000` when the loop
never ran. -/
def finishGroups (st : LoopState) : List SubtitleGroup :=
  match st.start_time with
  | some s =>
      if pyStrip st.current_sub = "" then st.groups
      else
        st.groups ++
          [⟨pyStrip st.current_sub, s,
            match st.last_tok with
            | some (o, d) => o + d
            | none => s + 1000⟩]
  | none => st.groups

/-- The Grouper `SpeechSynthesizer.build_groups(word_boundaries,
split_characters)`, over tokens whose fields are already resolved. -/
def build_groups (split_characters : List Char) (word_boundaries : List Token) : List SubtitleGroup :=
  finishGroups (word_boundaries.foldl (stepTok split_characters) initState)

/-- The token sequence of Scenario B of the spec. -/
def scenarioB : List Token :=
  [⟨"Hi", 0, 300⟩, ⟨"there", 300, 400⟩, ⟨"!", 700, 100⟩, ⟨"Bye", 800, 200⟩]

/-- A raw word-boundary record as read from the `.word.json` file: each field
may sit under the capitalized key, the lowercase key, both, or neither
(`none` = key absent, i.e. `dict.get` returns `None`). -/
structure RawToken where
  textCap : Option String
  textLow : Option String
  offsetCap : Option Nat
  offsetLow : Option Nat
  durationCap : Option Nat
  durationLow : Option Nat
deriving Repr, DecidableEq

/-- Python `a or b` on an optional string: `a` when present and truthy
(non-empty); `None` and `""` are falsy and fall through to `b`. -/
def pyOrStr (a b : Option String) : Option String :=
  match a with
  | some s => if s = "" then b else some s
  | none => b

/-- Python `a or b` on an optional integer: `a` when present and truthy
(non-zero); `None` and `0` are falsy and fall through to `b`. -/
def pyOrNat (a b : Option Nat) : Option Nat :=
  match a with
  | some n => if n = 0 then b else some n
  | none => b

/-- The lookup `token.get("Text") or token.get("text")`. -/
def resolveText (tok : RawToken) : Option String :=
  pyOrStr tok.textCap tok.textLow

/-- The lookup `token.get("AudioOffset") or token.get("audiooffset")`. -/
def resolveOffset (tok : RawToken) : Option Nat :=
  pyOrNat tok.offsetCap tok.offsetLow

/-- The lookup `token.get("Duration") or token.get("duration")`. -/
def resolveDuration (tok : RawToken) : Option Nat :=
  pyOrNat tok.durationCap tok.durationLow

/-- Raw loop state: like `LoopState`, but the recorded `offset`/`duration` of
the last executed iteration may themselves be Python `None`. -/
structure RawState where
  groups : List SubtitleGroup
  start_time : Option Nat
  current_sub : String
  last_tok : Option (Option Nat × Option Nat)
deriving Repr, DecidableEq

/-- State on entry to the raw loop. -/
def initRawState : RawState :=
  ⟨[], none, "", none⟩

/-- One iteration of the loop of `build_groups` on a raw record.
`current_sub += text` raises `TypeError` when the text lookup produced
`None`; `offset + duration` raises when either lookup produced `None`. -/
def stepRaw (split_characters : List Char) (st : RawState) (tok : RawToken) :
    Except String RawState :=
  let offset := resolveOffset tok
  let duration := resolveDuration tok
  let start_time : Option Nat :=
    match st.start_time with
    | none => offset
    | some s => some s
  match resolveText tok with
  | none => .error "TypeError: can only concatenate str"
  | some t =>
      let sub := st.current_sub ++ t
      if tokenSplits split_characters t then
        match offset, duration with
        | some o, some d =>
            .ok ⟨st.groups ++ [⟨pyStrip sub, st.start_time.getD o, o + d⟩], none, "",
              some (some o, some d)⟩
        | _, _ => .error "TypeError: unsupported operand type for +"
      else
        .ok ⟨st.groups, start_time, sub, some (offset, duration)⟩

/-- After the raw loop: the trailing flush, where `offset + duration` raises
on a `None` operand, and `'offset' in locals()` is modelled by `last_tok`. -/
def finishRaw (st : RawState) : Except String (List SubtitleGroup) :=
  match st.start_time with
  | some s =>
      if pyStrip st.current_sub = "" then .ok st.groups
      else
        match st.last_tok with
        | some (some o, some d) => .ok (st.groups ++ [⟨pyStrip st.current_sub, s, o + d⟩])
        | some (_, _) => .error "TypeError: unsupported operand type for +"
        | none => .ok (st.groups ++ [⟨pyStrip st.current_sub, s, s + 1000⟩])
  | none => .ok st.groups

/-- The raw loop over the record list, stopping at the first exception. -/
def loopRaw (split_characters : List Char) : RawState → List RawToken → Except String RawState
  | st, [] => .ok st
  | st, tok :: toks => do
      let st2 ← stepRaw split_characters st tok
      loopRaw split_characters st2 toks

/-- The Grouper `build_groups` on raw records, Python exceptions explicit. -/
def build_groups_raw (split_characters : List Char) (word_boundaries : List RawToken) :
    Except String (List SubtitleGroup) := do
  let st ← loopRaw split_characters initRawState word_boundaries
  finishRaw st

/-- A resolved token rendered with the lowercase keys only. -/
def toRawLow (t : Token) : RawToken :=
  ⟨none, some t.text, none, some t.offset, none, some t.duration⟩

/-- A resolved token rendered with the capitalized keys only. -/
def toRawCap (t : Token) : RawToken :=
  ⟨some t.text, none, some t.offset, none, some t.duration, none⟩

/-- The resolved view of a raw record whose three lookups all succeed. -/
def toToken (tok : RawToken) : Token :=
  ⟨(resolveText tok).getD "", (resolveOffset tok).getD 0, (resolveDuration tok).getD 0⟩

/-- Correspondence between a raw loop state and a resolved loop state. -/
def absState (r : RawState) (c : LoopState) : Prop :=
  r.groups = c.groups ∧ r.start_time = c.start_time ∧ r.current_sub = c.current_sub ∧
    r.last_tok = c.last_tok.map (fun p => (some p.1, some p.2))

/-- Decimal digit characters of `n`, most significant first (empty for `0`). -/
def natDigits (n : Nat) : List Char :=
  ((Nat.digits 10 n).reverse).map Nat.digitChar

/-- Zero-pad a digit string on the left to width `w`, as `%02d`/`%03d` do. -/
def padZeros (w : Nat) (l : List Char) : List Char :=
  List.replicate (w - l.length) '0' ++ l

/-- Modelled from the spec: the SRT timestamp `HH:MM:SS,mmm` of a
millisecond count — `hours:minutes:seconds,milliseconds`, zero-padded, hours
not capped at two digits.  The rendering itself lives in the srt library
(`timedelta_to_srt_timestamp`), which is not part of the repository. -/
def srtTimestamp (ms : Nat) : List Char :=
  padZeros 2 (natDigits (ms / 3600000)) ++ ':' ::
    (padZeros 2 (natDigits (ms % 3600000 / 60000)) ++ ':' ::
      (padZeros 2 (natDigits (ms % 60000 / 1000)) ++ ',' ::
        padZeros 3 (natDigits (ms % 1000))))

/-- One SRT record as `save_subs` builds it:
`srt.Subtitle(index=i+1, start, end, content)`. -/
structure SrtRecord where
  idx : Nat
  startMs : Nat
  endMs : Nat
  content : String
deriving Repr, DecidableEq

/-- Split a character list at every occurrence of `sep`, separator style:
`splitSep sep (a ++ [sep] ++ b) = [a, b]`, and the empty list gives `[[]]`. -/
def splitSep (sep : Char) : List Char → List (List Char)
  | [] => [[]]
  | c :: cs =>
      match splitSep sep cs with
      | [] => [[]]
      | l :: ls => if c = sep then [] :: l :: ls else (c :: l) :: ls

/-- Join with a separator, the left inverse of `splitSep`. -/
def joinSep (sep : Char) : List (List Char) → List Char
  | [] => []
  | l :: ls => l ++ (ls.map (fun l2 => sep :: l2)).join

/-- Modelled from the spec: the lines of one serialized SRT block — index
line, timing line (`start --> end`), one or more text lines, blank separator
line.  The block rendering lives in the srt library (`Subtitle.to_srt`),
which is not part of the repository; the record fields are those `save_subs`
passes to it. -/
def blockLines (i : Nat) (g : SubtitleGroup) : List (List Char) :=
  natDigits (i + 1) ::
    (srtTimestamp g.start ++ ' ' :: '-' :: '-' :: '>' :: ' ' :: srtTimestamp g.end_ms) ::
    (splitSep '\n' g.text.data ++ [[]])

/-- The lines of the whole document from 0-based position `i` on — the
`enumerate(groups)` loop of `save_subs` with `index=i+1`. -/
def docLines (i : Nat) : List SubtitleGroup → List (List Char)
  | [] => []
  | g :: gs => blockLines i g ++ docLines (i + 1) gs

/-- Terminator-style line join: every line, the last included, is followed by
a newline. -/
def joinLines (ls : List (List Char)) : List Char :=
  (ls.map (fun l => l ++ ['\n'])).join

/-- Modelled from the spec: the document `save_subs` writes to the `.srt`
file — the serialization of the records it builds (`srt.compose`, a library
the repository does not ship): blocks `index\ntiming\ntext\n\n` in input
order with sequential 1-based indices.  The file write itself is I/O outside
the core. -/
def composeDoc (groups : List SubtitleGroup) : String :=
  String.mk (joinLines (docLines 0 groups))

/-- Numeric value of a digit character `'0'..'9'`. -/
def digitVal (c : Char) : Nat :=
  c.toNat - 48

/-- Value of a digit string, most significant digit first. -/
def digitsVal (l : List Char) : Nat :=
  l.foldl (fun a c => 10 * a + digitVal c) 0

/-- Parse a non-empty all-digit line as a number. -/
def parseNatAll (l : List Char) : Option Nat :=
  if l ≠ [] ∧ l.all Char.isDigit then some (digitsVal l) else none

/-- Modelled from the spec: read one SRT timestamp `H+:MM:SS,mmm` off the
front of a character list, returning its millisecond value and the rest.
The repository ships no SRT parser — serialization is delegated to the srt
library — so §4.2's round-trip obligation is stated against this parser of
the conventional timestamp shape. -/
def readTimestamp (cs : List Char) : Option (Nat × List Char) :=
  let hh := cs.takeWhile Char.isDigit
  let cs1 := cs.dropWhile Char.isDigit
  if hh = [] then none else
  match cs1 with
  | [] => none
  | c1 :: cs2 =>
      if c1 = ':' then
        let mm := cs2.takeWhile Char.isDigit
        let cs3 := cs2.dropWhile Char.isDigit
        if mm = [] then none else
        match cs3 with
        | [] => none
        | c2 :: cs4 =>
            if c2 = ':' then
              let ss := cs4.takeWhile Char.isDigit
              let cs5 := cs4.dropWhile Char.isDigit
              if ss = [] then none else
              match cs5 with
              | [] => none
              | c3 :: cs6 =>
                  if c3 = ',' then
                    let mss := cs6.takeWhile Char.isDigit
                    let cs7 := cs6.dropWhile Char.isDigit
                    if mss = [] then none else
                    some (digitsVal hh * 3600000 + digitsVal mm * 60000 +
                      digitsVal ss * 1000 + digitsVal mss, cs7)
                  else none
            else none
      else none

/-- Modelled from the spec: parse a timing line `start --> end`,
requiring the whole line to be consumed. -/
def parseTiming (cs : List Char) : Option (Nat × Nat) :=
  match readTimestamp cs with
  | some (s, rest) =>
      if rest.take 5 = [' ', '-', '-', '>', ' '] then
        match readTimestamp (rest.drop 5) with
        | some (e, []) => some (s, e)
        | some (_, _ :: _) => none
        | none => none
      else none
  | none => none

/-- Modelled from the spec: parse the blocks of a line-split SRT document —
index line, timing line, one or more non-blank text lines, blank separator.
`[[]]` is the residue of the final newline; an empty document has no lines. -/
def parseBlocks : List (List Char) → Option (List SrtRecord)
  | [] => some []
  | [idxLine] => if idxLine = [] then some [] else none
  | idxLine :: timeLine :: rest =>
      match parseNatAll idxLine, parseTiming timeLine with
      | some i, some (s, e) =>
          let txt := rest.takeWhile (fun l => !l.isEmpty)
          if txt = [] then none else
          match hrest : rest.dropWhile (fun l => !l.isEmpty) with
          | [] :: rest2 =>
              match parseBlocks rest2 with
              | some recs => some (⟨i, s, e, String.mk (joinSep '\n' txt)⟩ :: recs)
              | none => none
          | _ => none
      | _, _ => none
termination_by ls => ls.length
decreasing_by
  simp_wf
  have h : ∀ (l2 : List (List Char)),
      (l2.dropWhile (fun l => !l.isEmpty)).length ≤ l2.length := by
    intro l2
    induction l2 with
    | nil => simp
    | cons c cs ih =>
      rw [List.dropWhile_cons]
      split
      · exact Nat.le_succ_of_le ih
      · simp
  have h2 := h rest
  rw [hrest] at h2
  simp only [List.length_cons] at h2
  omega

/-- Modelled from the spec: parse an SRT document into its records. -/
def parseDoc (doc : String) : Option (List SrtRecord) :=
  parseBlocks (splitSep '\n' doc.data)

/-- The records of the round trip: groups in order, indices sequential from
`i + 1`. -/
def indexedRecs (i : Nat) : List SubtitleGroup → List SrtRecord
  | [] => []
  | g :: gs => ⟨i + 1, g.start, g.end_ms, g.text⟩ :: indexedRecs (i + 1) gs

/-- C1, counterexample: on Scenario B the grouper does not return the claimed
pair of groups — `current_sub += text` concatenates token texts without any
separator, so the first group's text is `"Hithere!"`, not `"Hi there!"`. -/
theorem scenarioB_claimed_output_not_produced :
    build_groups ['!'] scenarioB ≠
      [⟨"Hi there!", 0, 800⟩, ⟨"Bye", 800, 1000⟩] := by
  decide

/-- C1, amended: on Scenario B `build_groups` returns exactly two groups,
`{text: "Hithere!", start: 0, end: 800}` (texts concatenated with no inserted
space) followed by the trailing group `{text: "Bye", start: 800, end: 1000}`
whose end is the last token's `offset + duration`. -/
theorem scenarioB_groups :
    build_groups ['!'] scenarioB =
      [⟨"Hithere!", 0, 800⟩, ⟨"Bye", 800, 1000⟩] := by
  decide

/-- Dropping a prefix cannot lengthen a list. -/
theorem dropWhile_length_le {α : Type} (p : α → Bool) (l : List α) :
    (l.dropWhile p).length ≤ l.length := by
  induction l with
  | nil => simp
  | cons c cs ih =>
    rw [List.dropWhile_cons]
    split
    · exact Nat.le_succ_of_le ih
    · simp

/-- Dropping with the same predicate twice is dropping once. -/
theorem dropWhile_dropWhile {α : Type} (p : α → Bool) (l : List α) :
    (l.dropWhile p).dropWhile p = l.dropWhile p := by
  induction l with
  | nil => rfl
  | cons c cs ih =>
    rw [List.dropWhile_cons]
    split
    · exact ih
    · next h => simp [List.dropWhile_cons, h]

/-- Stripping trailing whitespace removes only a suffix: the back-stripped
list is a prefix of the original. -/
theorem backStrip_append (l : List Char) :
    ∃ t, l = (l.reverse.dropWhile pyWhitespace).reverse ++ t := by
  obtain ⟨t, ht⟩ := List.dropWhile_suffix (l := l.reverse) pyWhitespace
  refine ⟨t.reverse, ?_⟩
  calc l = l.reverse.reverse := (List.reverse_reverse l).symm
    _ = (t ++ l.reverse.dropWhile pyWhitespace).reverse := by rw [ht]
    _ = _ := by rw [List.reverse_append]

/-- A list with no leading whitespace still has none after stripping its
trailing whitespace. -/
theorem front_stripped_backStrip (m : List Char) (h : m.dropWhile pyWhitespace = m) :
    ((m.reverse.dropWhile pyWhitespace).reverse).dropWhile pyWhitespace
      = (m.reverse.dropWhile pyWhitespace).reverse := by
  cases hB : (m.reverse.dropWhile pyWhitespace).reverse with
  | nil => rfl
  | cons b bs =>
    obtain ⟨t, ht⟩ := backStrip_append m
    rw [hB] at ht
    have hm : m = b :: (bs ++ t) := by simpa using ht
    have hb : pyWhitespace b = false := by
      cases hx : pyWhitespace b with
      | false => rfl
      | true =>
        rw [hm, List.dropWhile_cons, if_pos hx] at h
        have h1 := dropWhile_length_le pyWhitespace (bs ++ t)
        have h2 := congrArg List.length h
        simp only [List.length_cons] at h2
        omega
    simp [List.dropWhile_cons, hb]

/-- Python's `strip` is idempotent: stripped text is trimmed. -/
theorem stripChars_idem (l : List Char) : stripChars (stripChars l) = stripChars l := by
  have h1 : (stripChars l).dropWhile pyWhitespace = stripChars l :=
    front_stripped_backStrip (l.dropWhile pyWhitespace) (dropWhile_dropWhile _ _)
  show (((stripChars l).dropWhile pyWhitespace).reverse.dropWhile pyWhitespace).reverse
      = stripChars l
  rw [h1]
  show ((((l.dropWhile pyWhitespace).reverse.dropWhile pyWhitespace).reverse).reverse.dropWhile
      pyWhitespace).reverse = stripChars l
  rw [List.reverse_reverse, dropWhile_dropWhile]
  rfl

/-- Stripping cannot erase a non-whitespace character: the stripped list is
then non-empty. -/
theorem stripChars_ne_nil (l : List Char) (c : Char) (hc : c ∈ l)
    (hw : pyWhitespace c = false) : stripChars l ≠ [] := by
  intro h
  have h0 : (l.dropWhile pyWhitespace).reverse.dropWhile pyWhitespace = [] := by
    have h' := congrArg List.reverse h
    simpa [stripChars] using h'
  have h1 := List.dropWhile_eq_nil_iff.mp h0
  have h2 : pyWhitespace c = true := by
    rcases List.mem_append.mp
        (by rw [List.takeWhile_append_dropWhile (p := pyWhitespace) (l := l)]; exact hc :
          c ∈ l.takeWhile pyWhitespace ++ l.dropWhile pyWhitespace) with h3 | h3
    · exact List.mem_takeWhile_imp h3
    · exact h1 c (List.mem_reverse.mpr h3)
  rw [h2] at hw
  exact Bool.noConfusion hw

/-- The split test succeeds exactly when the text has a final character and it
lies in the split set. -/
theorem tokenSplits_iff (split_characters : List Char) (text : String) :
    tokenSplits split_characters text = true ↔
      ∃ c, text.data.getLast? = some c ∧ c ∈ split_characters := by
  unfold tokenSplits
  cases h : text.data.getLast? with
  | none => simp
  | some c => simp [List.elem_iff]

/-- C3: one iteration of the loop of `build_groups` closes the in-progress
group exactly when the current token's own text is non-empty with its final
character in the split set; a split character elsewhere in the token text, or
at the end of the accumulated buffer by way of an earlier token, never closes
a group. -/
theorem stepTok_closes_iff (split_characters : List Char) (st : LoopState) (tok : Token) :
    (stepTok split_characters st tok).groups ≠ st.groups ↔
      ∃ c, tok.text.data.getLast? = some c ∧ c ∈ split_characters := by
  rw [← tokenSplits_iff]
  cases h : tokenSplits split_characters tok.text with
  | true => simp [stepTok, h]
  | false => simp [stepTok, h]

/-- After one iteration of the loop, a last token is always recorded. -/
theorem stepTok_last_tok (split_characters : List Char) (st : LoopState) (tok : Token) :
    (stepTok split_characters st tok).last_tok = some (tok.offset, tok.duration) := by
  unfold stepTok
  split <;> rfl

/-- After processing a non-empty token list, the recorded last token is the
final token of the list. -/
theorem foldl_last_tok (split_characters : List Char) :
    ∀ (toks : List Token) (st : LoopState) (h : toks ≠ []),
      (toks.foldl (stepTok split_characters) st).last_tok =
        some ((toks.getLast h).offset, (toks.getLast h).duration) := by
  intro toks
  induction toks with
  | nil => intro st h; exact absurd rfl h
  | cons t ts ih =>
    intro st h
    cases ts with
    | nil => simpa using stepTok_last_tok split_characters st t
    | cons t2 ts2 =>
      rw [List.foldl_cons, List.getLast_cons (by simp)]
      exact ih (stepTok split_characters st t) (by simp)

/-- A non-empty stripped buffer after the loop means the loop ran. -/
theorem buffer_nonempty_ne_nil (split_characters : List Char) (word_boundaries : List Token)
    (h : pyStrip (word_boundaries.foldl (stepTok split_characters) initState).current_sub ≠ "") :
    word_boundaries ≠ [] := by
  intro hnil
  subst hnil
  exact h rfl

/-- C10: whenever the trailing flush of `build_groups` can fire (the stripped
buffer is non-empty), the loop has processed at least one token and recorded
its offset and duration, so the `start_time + 1000` fallback of the flush is
dead code. -/
theorem fallback_dead (split_characters : List Char) (word_boundaries : List Token)
    (h : pyStrip (word_boundaries.foldl (stepTok split_characters) initState).current_sub ≠ "") :
    word_boundaries ≠ [] ∧
      (word_boundaries.foldl (stepTok split_characters) initState).last_tok ≠ none := by
  have hne := buffer_nonempty_ne_nil split_characters word_boundaries h
  refine ⟨hne, ?_⟩
  rw [foldl_last_tok split_characters word_boundaries initState hne]
  simp

/-- C10 witness: a concrete run in which the trailing flush fires with a
recorded last token. -/
theorem fallback_dead_witness :
    pyStrip (([⟨"Bye", 800, 200⟩] : List Token).foldl (stepTok ['!']) initState).current_sub
        ≠ "" ∧
      ([⟨"Bye", 800, 200⟩] : List Token) ≠ [] ∧
        (([⟨"Bye", 800, 200⟩] : List Token).foldl (stepTok ['!']) initState).last_tok ≠ none :=
  ⟨by decide, fallback_dead ['!'] [⟨"Bye", 800, 200⟩] (by decide)⟩

/-- C6: when the trailing flush fires — stripped buffer non-empty, start time
captured — `build_groups` appends exactly one final group and its end time is
the `offset + duration` of the last processed token, the final token of the
input; the `start + 1000` fallback would require the loop never to have run,
which the non-empty buffer rules out. -/
theorem trailing_flush_end (split_characters : List Char) (word_boundaries : List Token) (s : Nat)
    (h1 : pyStrip (word_boundaries.foldl (stepTok split_characters) initState).current_sub ≠ "")
    (h2 : (word_boundaries.foldl (stepTok split_characters) initState).start_time = some s) :
    ∃ hne : word_boundaries ≠ [],
      build_groups split_characters word_boundaries =
        (word_boundaries.foldl (stepTok split_characters) initState).groups ++
          [⟨pyStrip (word_boundaries.foldl (stepTok split_characters) initState).current_sub, s,
            (word_boundaries.getLast hne).offset + (word_boundaries.getLast hne).duration⟩] := by
  have hne := buffer_nonempty_ne_nil split_characters word_boundaries h1
  have hlast := foldl_last_tok split_characters word_boundaries initState hne
  refine ⟨hne, ?_⟩
  unfold build_groups finishGroups
  rw [h2, hlast]
  simp [h1]

/-- C6 witness: one trailing token, never split, flushed with end time
`800 + 200`. -/
theorem trailing_flush_end_witness :
    (pyStrip (([⟨"Bye", 800, 200⟩] : List Token).foldl (stepTok ['!']) initState).current_sub
        ≠ "" ∧
      (([⟨"Bye", 800, 200⟩] : List Token).foldl (stepTok ['!']) initState).start_time
        = some 800) ∧
      ∃ hne : ([⟨"Bye", 800, 200⟩] : List Token) ≠ [],
        build_groups ['!'] [⟨"Bye", 800, 200⟩] =
          (([⟨"Bye", 800, 200⟩] : List Token).foldl (stepTok ['!']) initState).groups ++
            [⟨pyStrip (([⟨"Bye", 800, 200⟩] : List Token).foldl
                (stepTok ['!']) initState).current_sub, 800,
              (([⟨"Bye", 800, 200⟩] : List Token).getLast hne).offset +
                (([⟨"Bye", 800, 200⟩] : List Token).getLast hne).duration⟩] :=
  ⟨⟨by decide, by decide⟩, trailing_flush_end ['!'] [⟨"Bye", 800, 200⟩] 800
    (by decide) (by decide)⟩

/-- Python's `strip` is idempotent, at the string level. -/
theorem pyStrip_idem (s : String) : pyStrip (pyStrip s) = pyStrip s := by
  unfold pyStrip
  rw [show (String.mk (stripChars s.data)).data = stripChars s.data from rfl, stripChars_idem]

/-- A string containing a non-whitespace character does not strip to empty. -/
theorem pyStrip_ne_empty (s : String) (c : Char) (hc : c ∈ s.data)
    (hw : pyWhitespace c = false) : pyStrip s ≠ "" := by
  intro h
  apply stripChars_ne_nil s.data c hc hw
  have h' := congrArg String.data h
  simpa [pyStrip] using h'

/-- Invariant: if every group built so far has trimmed non-empty text and no
split character is whitespace, the property survives the rest of the loop and
the trailing flush. -/
theorem foldl_goodText (split_characters : List Char)
    (hws : ∀ c ∈ split_characters, pyWhitespace c = false) :
    ∀ (toks : List Token) (st : LoopState),
      (∀ g ∈ st.groups, pyStrip g.text = g.text ∧ g.text ≠ "") →
      ∀ g ∈ finishGroups (toks.foldl (stepTok split_characters) st),
        pyStrip g.text = g.text ∧ g.text ≠ "" := by
  intro toks
  induction toks with
  | nil =>
    intro st hst g hg
    rw [List.foldl_nil] at hg
    unfold finishGroups at hg
    cases hstart : st.start_time with
    | none => rw [hstart] at hg; exact hst g hg
    | some s =>
      simp only [hstart] at hg
      by_cases hemp : pyStrip st.current_sub = ""
      · rw [if_pos hemp] at hg
        exact hst g hg
      · rw [if_neg hemp] at hg
        rcases List.mem_append.mp hg with h | h
        · exact hst g h
        · have hgeq : g = ⟨pyStrip st.current_sub, s,
              match st.last_tok with
              | some (o, d) => o + d
              | none => s + 1000⟩ := by simpa using h
          subst hgeq
          exact ⟨pyStrip_idem _, hemp⟩
  | cons t ts ih =>
    intro st hst
    rw [List.foldl_cons]
    apply ih
    intro g hg
    cases hsp : tokenSplits split_characters t.text with
    | false =>
      simp only [stepTok, hsp] at hg
      simp at hg
      exact hst g hg
    | true =>
      simp only [stepTok, hsp, if_true] at hg
      simp at hg
      rcases hg with h | h
      · exact hst g h
      · obtain ⟨c, hlast, hcs⟩ := (tokenSplits_iff _ _).mp hsp
        have hc : c ∈ (st.current_sub ++ t.text).data := by
          rw [String.data_append]
          exact List.mem_append.mpr (Or.inr (List.mem_of_getLast?_eq_some hlast))
        subst h
        exact ⟨pyStrip_idem _, pyStrip_ne_empty _ c hc (hws c hcs)⟩

/-- C5 counterexample: with the whitespace split character `' '`, a
whitespace-only token closes a group mid-loop — that close, unlike the
trailing flush, has no non-emptiness guard — so `build_groups` emits a group
whose text is empty. -/
theorem empty_text_group_produced :
    build_groups [' '] [⟨" ", 0, 100⟩] = [⟨"", 0, 100⟩] := by
  decide

/-- C5 amended: provided no split character is whitespace (true of every
punctuation split set), every group produced by `build_groups` has trimmed,
non-empty text; with a whitespace split character the mid-loop close can emit
a group whose stripped text is empty. -/
theorem groups_text_trimmed_nonempty (split_characters : List Char)
    (word_boundaries : List Token)
    (hws : ∀ c ∈ split_characters, pyWhitespace c = false) :
    ∀ g ∈ build_groups split_characters word_boundaries,
      pyStrip g.text = g.text ∧ g.text ≠ "" :=
  foldl_goodText split_characters hws word_boundaries initState (by simp [initState])

/-- C5 witness: the punctuation split set `{'!'}` on Scenario B. -/
theorem groups_text_trimmed_nonempty_witness :
    (∀ c ∈ (['!'] : List Char), pyWhitespace c = false) ∧
      ∀ g ∈ build_groups ['!'] scenarioB, pyStrip g.text = g.text ∧ g.text ≠ "" :=
  ⟨by decide, groups_text_trimmed_nonempty ['!'] scenarioB (by decide)⟩

/-- Ordering invariant carried through the loop of `build_groups`: with token
offsets non-decreasing and all state components compatibly bounded, the final
group list is sorted by start time and every group ends no earlier than it
starts. -/
theorem foldl_sorted_inv (split_characters : List Char) :
    ∀ (toks : List Token) (st : LoopState),
      (toks.map Token.offset).Sorted (· ≤ ·) →
      (st.groups.map SubtitleGroup.start).Sorted (· ≤ ·) →
      (∀ g ∈ st.groups, g.start ≤ g.end_ms) →
      (∀ g ∈ st.groups, ∀ tk ∈ toks, g.start ≤ tk.offset) →
      (∀ s, st.start_time = some s → ∀ tk ∈ toks, s ≤ tk.offset) →
      (∀ s, st.start_time = some s → ∀ g ∈ st.groups, g.start ≤ s) →
      (∀ s o d, st.start_time = some s → st.last_tok = some (o, d) → s ≤ o) →
      ((finishGroups (toks.foldl (stepTok split_characters) st)).map
          SubtitleGroup.start).Sorted (· ≤ ·) ∧
        ∀ g ∈ finishGroups (toks.foldl (stepTok split_characters) st), g.start ≤ g.end_ms := by
  intro toks
  induction toks with
  | nil =>
    intro st _ hg1 hg2 _ _ hs2 hs3
    rw [List.foldl_nil]
    unfold finishGroups
    cases hstart : st.start_time with
    | none => exact ⟨hg1, hg2⟩
    | some s =>
      simp only [hstart]
      by_cases hemp : pyStrip st.current_sub = ""
      · rw [if_pos hemp]
        exact ⟨hg1, hg2⟩
      · rw [if_neg hemp]
        constructor
        · rw [List.map_append]
          refine List.pairwise_append.mpr ⟨hg1, by simp, ?_⟩
          intro a ha b hb
          simp at hb
          rw [hb]
          obtain ⟨g, hgmem, hga⟩ := List.mem_map.mp ha
          rw [← hga]
          exact hs2 s hstart g hgmem
        · intro g hgm
          rcases List.mem_append.mp hgm with h | h
          · exact hg2 g h
          · have hgeq : g = ⟨pyStrip st.current_sub, s,
                match st.last_tok with
                | some (o, d) => o + d
                | none => s + 1000⟩ := by simpa using h
            subst hgeq
            cases hlt : st.last_tok with
            | none => simp [hlt]
            | some od =>
              obtain ⟨o, d⟩ := od
              have hso := hs3 s o d hstart hlt
              simp only [hlt]
              show s ≤ o + d
              omega
  | cons t ts ih =>
    intro st hsort hg1 hg2 hg3 hs1 hs2 hs3
    rw [List.foldl_cons]
    have hsort' : (ts.map Token.offset).Sorted (· ≤ ·) := by
      rw [List.map_cons] at hsort
      exact (List.sorted_cons.mp hsort).2
    have hoff : ∀ tk ∈ ts, t.offset ≤ tk.offset := by
      rw [List.map_cons] at hsort
      intro tk htk
      exact (List.sorted_cons.mp hsort).1 _ (List.mem_map.mpr ⟨tk, htk, rfl⟩)
    have hs0 : ∀ g ∈ st.groups, g.start ≤ st.start_time.getD t.offset := by
      intro g hgmem
      cases hstart : st.start_time with
      | none => exact hg3 g hgmem t (List.mem_cons_self t ts)
      | some s => exact hs2 s hstart g hgmem
    have hs0t : st.start_time.getD t.offset ≤ t.offset := by
      cases hstart : st.start_time with
      | none => simp
      | some s => simpa using hs1 s hstart t (List.mem_cons_self t ts)
    cases hsp : tokenSplits split_characters t.text with
    | true =>
      refine ih (stepTok split_characters st t) hsort' ?_ ?_ ?_ ?_ ?_ ?_
      · simp only [stepTok, hsp, if_true]
        rw [List.map_append]
        refine List.pairwise_append.mpr ⟨hg1, by simp, ?_⟩
        intro a ha b hb
        simp at hb
        subst hb
        obtain ⟨g, hgmem, hga⟩ := List.mem_map.mp ha
        rw [← hga]
        exact hs0 g hgmem
      · simp only [stepTok, hsp, if_true]
        intro g hgm
        rcases List.mem_append.mp hgm with h | h
        · exact hg2 g h
        · have hgeq : g = ⟨pyStrip (st.current_sub ++ t.text), st.start_time.getD t.offset,
              t.offset + t.duration⟩ := by simpa using h
          subst hgeq
          show st.start_time.getD t.offset ≤ t.offset + t.duration
          omega
      · simp only [stepTok, hsp, if_true]
        intro g hgm tk htk
        rcases List.mem_append.mp hgm with h | h
        · exact hg3 g h tk (List.mem_cons_of_mem t htk)
        · have hgeq : g = ⟨pyStrip (st.current_sub ++ t.text), st.start_time.getD t.offset,
              t.offset + t.duration⟩ := by simpa using h
          subst hgeq
          show st.start_time.getD t.offset ≤ tk.offset
          exact le_trans hs0t (hoff tk htk)
      · simp only [stepTok, hsp, if_true]
        intro s h
        exact absurd h (by simp)
      · simp only [stepTok, hsp, if_true]
        intro s h
        exact absurd h (by simp)
      · simp only [stepTok, hsp, if_true]
        intro s o d h
        exact absurd h (by simp)
    | false =>
      refine ih (stepTok split_characters st t) hsort' ?_ ?_ ?_ ?_ ?_ ?_
      · simpa only [stepTok, hsp, if_false] using hg1
      · simpa only [stepTok, hsp, if_false] using hg2
      · simp only [stepTok, hsp, if_false]
        intro g hgm tk htk
        exact hg3 g hgm tk (List.mem_cons_of_mem t htk)
      · simp only [stepTok, hsp, if_false]
        intro s h tk htk
        have hss : s = st.start_time.getD t.offset := by
          simpa using h.symm
        subst hss
        exact le_trans hs0t (hoff tk htk)
      · simp only [stepTok, hsp, if_false]
        intro s h g hgmem
        have hss : s = st.start_time.getD t.offset := by
          simpa using h.symm
        subst hss
        exact hs0 g hgmem
      · simp only [stepTok, hsp, if_false]
        intro s o d h hod
        have hss : s = st.start_time.getD t.offset := by
          simpa using h.symm
        have ho : o = t.offset := by
          have := hod.symm
          simp at this
          exact this.1
        subst hss
        rw [ho]
        exact hs0t

/-- C7: for a non-empty token sequence in utterance order (non-decreasing
offsets), `build_groups` produces its groups in non-decreasing start order —
the order of the tokens that started them — and every group satisfies
`end_ms ≥ start`. -/
theorem groups_sorted (split_characters : List Char) (word_boundaries : List Token)
    (hne : word_boundaries ≠ [])
    (hsort : (word_boundaries.map Token.offset).Sorted (· ≤ ·)) :
    ((build_groups split_characters word_boundaries).map SubtitleGroup.start).Sorted (· ≤ ·) ∧
      ∀ g ∈ build_groups split_characters word_boundaries, g.start ≤ g.end_ms :=
  foldl_sorted_inv split_characters word_boundaries initState hsort
    (by simp [initState]) (by simp [initState]) (by simp [initState])
    (by intro s h; exact absurd h (by simp [initState]))
    (by intro s h; exact absurd h (by simp [initState]))
    (by intro s o d h; exact absurd h (by simp [initState]))

/-- C7 witness: Scenario B is non-empty with sorted offsets, and its groups
come out sorted with valid spans. -/
theorem groups_sorted_witness :
    (scenarioB ≠ [] ∧ (scenarioB.map Token.offset).Sorted (· ≤ ·)) ∧
      ((build_groups ['!'] scenarioB).map SubtitleGroup.start).Sorted (· ≤ ·) ∧
        ∀ g ∈ build_groups ['!'] scenarioB, g.start ≤ g.end_ms :=
  ⟨⟨by decide, by decide⟩, groups_sorted ['!'] scenarioB (by decide) (by decide)⟩

/-- A raw iteration on a record whose lookups resolve never raises, and tracks
the resolved iteration. -/
theorem stepRaw_resolved (split_characters : List Char) (r : RawState) (c : LoopState)
    (tok : RawToken) (txt : String) (o d : Nat) (habs : absState r c)
    (ht : resolveText tok = some txt) (ho : resolveOffset tok = some o)
    (hd : resolveDuration tok = some d) :
    ∃ r2, stepRaw split_characters r tok = .ok r2 ∧
      absState r2 (stepTok split_characters c ⟨txt, o, d⟩) := by
  obtain ⟨h1, h2, h3, h4⟩ := habs
  cases hsp : tokenSplits split_characters txt with
  | true =>
    refine ⟨⟨r.groups ++ [⟨pyStrip (r.current_sub ++ txt), r.start_time.getD o, o + d⟩],
      none, "", some (some o, some d)⟩, ?_, ?_⟩
    · simp [stepRaw, ht, ho, hd, hsp]
    · unfold absState
      simp [stepTok, hsp, h1, h2, h3]
  | false =>
    refine ⟨⟨r.groups,
      match r.start_time with
      | none => some o
      | some s => some s, r.current_sub ++ txt, some (some o, some d)⟩, ?_, ?_⟩
    · simp [stepRaw, ht, ho, hd, hsp]
    · unfold absState
      refine ⟨by simpa [stepTok, hsp] using h1, ?_, by simp [stepTok, hsp, h3],
        by simp [stepTok, hsp]⟩
      simp only [stepTok, hsp]
      rw [h2]
      cases c.start_time <;> simp

/-- A raw run over records whose lookups all resolve never raises, and tracks
the resolved loop. -/
theorem loopRaw_resolved (split_characters : List Char) :
    ∀ (raws : List RawToken) (r : RawState) (c : LoopState),
      absState r c →
      (∀ tok ∈ raws, (resolveText tok).isSome ∧ (resolveOffset tok).isSome ∧
        (resolveDuration tok).isSome) →
      ∃ r2, loopRaw split_characters r raws = .ok r2 ∧
        absState r2 ((raws.map toToken).foldl (stepTok split_characters) c) := by
  intro raws
  induction raws with
  | nil =>
    intro r c habs _
    exact ⟨r, rfl, by simpa using habs⟩
  | cons tok raws ih =>
    intro r c habs hres
    obtain ⟨ht, ho, hd⟩ := hres tok (List.mem_cons_self _ _)
    obtain ⟨txt, htxt⟩ := Option.isSome_iff_exists.mp ht
    obtain ⟨o, hoo⟩ := Option.isSome_iff_exists.mp ho
    obtain ⟨d, hdd⟩ := Option.isSome_iff_exists.mp hd
    obtain ⟨r2, hstep, habs2⟩ :=
      stepRaw_resolved split_characters r c tok txt o d habs htxt hoo hdd
    have htok : toToken tok = ⟨txt, o, d⟩ := by
      simp [toToken, htxt, hoo, hdd]
    obtain ⟨r3, hloop, habs3⟩ := ih r2 (stepTok split_characters c (toToken tok))
      (by rw [htok]; exact habs2)
      (fun t h => hres t (List.mem_cons_of_mem _ h))
    refine ⟨r3, ?_, ?_⟩
    · rw [show loopRaw split_characters r (tok :: raws) =
        (stepRaw split_characters r tok >>= fun st2 => loopRaw split_characters st2 raws)
        from rfl, hstep]
      simpa using hloop
    · simpa using habs3

/-- Corresponding states produce the same trailing flush, and the raw flush
never raises. -/
theorem finishRaw_abs (r : RawState) (c : LoopState) (habs : absState r c) :
    finishRaw r = .ok (finishGroups c) := by
  obtain ⟨h1, h2, h3, h4⟩ := habs
  unfold finishRaw finishGroups
  rw [h1, h2, h3, h4]
  cases c.start_time with
  | none => rfl
  | some s =>
    by_cases hemp : pyStrip c.current_sub = ""
    · simp only [hemp, if_pos]
    · simp only [if_neg hemp]
      cases c.last_tok with
      | none => rfl
      | some od => rfl

/-- When every record resolves all three lookups, the raw grouper returns
normally, with exactly the groups of the resolved grouper. -/
theorem build_groups_raw_ok (split_characters : List Char) (raws : List RawToken)
    (hres : ∀ tok ∈ raws, (resolveText tok).isSome ∧ (resolveOffset tok).isSome ∧
      (resolveDuration tok).isSome) :
    build_groups_raw split_characters raws =
      .ok (build_groups split_characters (raws.map toToken)) := by
  obtain ⟨r2, hloop, habs⟩ := loopRaw_resolved split_characters raws initRawState initState
    (by exact ⟨rfl, rfl, rfl, rfl⟩) hres
  unfold build_groups_raw build_groups
  rw [show (do
      let st ← loopRaw split_characters initRawState raws
      finishRaw st : Except String (List SubtitleGroup)) =
    (loopRaw split_characters initRawState raws >>= finishRaw) from rfl, hloop]
  simpa using finishRaw_abs r2 _ habs

/-- C4 counterexample: a record carrying all three fields under the
capitalized convention but with empty text — `{"Text": "", "AudioOffset": 5,
"Duration": 7}` — makes the grouper raise `TypeError`: the empty string is
falsy, `token.get("Text") or token.get("text")` falls through to the absent
lowercase key, and `current_sub += None` fails. -/
theorem capitalized_empty_text_raises :
    build_groups_raw ['!'] [⟨some "", none, some 5, none, some 7, none⟩] =
      .error "TypeError: can only concatenate str" := rfl

/-- C4 amended: `build_groups` returns normally for every record sequence in
which each record's three `or`-lookups resolve to values — in particular
always under the lowercase convention, including empty text; under the
capitalized convention alone, a falsy field value (empty text, zero
offset/duration) resolves to `None` instead and can raise. -/
theorem build_groups_raw_total (split_characters : List Char)
    (word_boundaries : List RawToken)
    (hres : ∀ tok ∈ word_boundaries, (resolveText tok).isSome ∧
      (resolveOffset tok).isSome ∧ (resolveDuration tok).isSome) :
    build_groups_raw split_characters word_boundaries =
      .ok (build_groups split_characters (word_boundaries.map toToken)) :=
  build_groups_raw_ok split_characters word_boundaries hres

/-- C4 witness: a lowercase-keyed record with empty text and zero offset and
duration still resolves, and the grouper returns normally. -/
theorem build_groups_raw_total_witness :
    (∀ tok ∈ ([⟨none, some "", none, some 0, none, some 0⟩] : List RawToken),
      (resolveText tok).isSome ∧ (resolveOffset tok).isSome ∧ (resolveDuration tok).isSome) ∧
      build_groups_raw ['!'] [⟨none, some "", none, some 0, none, some 0⟩] =
        .ok (build_groups ['!']
          (([⟨none, some "", none, some 0, none, some 0⟩] : List RawToken).map toToken)) :=
  ⟨by decide, build_groups_raw_total ['!'] _ (by decide)⟩

/-- C2 counterexample: the token `{text: "Hi", offset: 0, duration: 300}`.
Under lowercase keys the group `{"Hi", 0, 300}` comes out; under capitalized
keys the offset `0` is falsy, the lookup falls through to the absent
lowercase key, `start_time` stays `None`, and the trailing flush is skipped,
yielding no group at all.  The two conventions disagree. -/
theorem conventions_differ :
    build_groups_raw ['!'] [toRawCap ⟨"Hi", 0, 300⟩] ≠
      build_groups_raw ['!'] [toRawLow ⟨"Hi", 0, 300⟩] := by
  have hL : build_groups_raw ['!'] [toRawCap ⟨"Hi", 0, 300⟩] =
      .ok [] := rfl
  have hR : build_groups_raw ['!'] [toRawLow ⟨"Hi", 0, 300⟩] =
      .ok [⟨"Hi", 0, 300⟩] := rfl
  rw [hL, hR]
  intro h
  simp at h

/-- C2 amended: the two key-naming conventions produce identical results for
every token sequence whose field values are all truthy — text non-empty and
offset and duration non-zero; a falsy value (`""`, `0`) under one convention
falls through the `or`-lookup to the other convention's absent key, where the
conventions disagree. -/
theorem conventions_agree_on_truthy (split_characters : List Char) (toks : List Token)
    (htruthy : ∀ t ∈ toks, t.text ≠ "" ∧ t.offset ≠ 0 ∧ t.duration ≠ 0) :
    build_groups_raw split_characters (toks.map toRawCap) =
      build_groups_raw split_characters (toks.map toRawLow) := by
  have hresC : ∀ tok ∈ toks.map toRawCap, (resolveText tok).isSome ∧
      (resolveOffset tok).isSome ∧ (resolveDuration tok).isSome := by
    intro tok htok
    obtain ⟨t, htmem, hteq⟩ := List.mem_map.mp htok
    obtain ⟨h1, h2, h3⟩ := htruthy t htmem
    subst hteq
    exact ⟨by simp [resolveText, pyOrStr, toRawCap, h1],
      by simp [resolveOffset, pyOrNat, toRawCap, h2],
      by simp [resolveDuration, pyOrNat, toRawCap, h3]⟩
  have hresL : ∀ tok ∈ toks.map toRawLow, (resolveText tok).isSome ∧
      (resolveOffset tok).isSome ∧ (resolveDuration tok).isSome := by
    intro tok htok
    obtain ⟨t, htmem, hteq⟩ := List.mem_map.mp htok
    subst hteq
    exact ⟨by simp [resolveText, pyOrStr, toRawLow],
      by simp [resolveOffset, pyOrNat, toRawLow],
      by simp [resolveDuration, pyOrNat, toRawLow]⟩
  have hidC : (toks.map toRawCap).map toToken = toks := by
    rw [List.map_map]
    conv_rhs => rw [show toks = toks.map id from (List.map_id toks).symm]
    apply List.map_congr_left
    intro t htmem
    obtain ⟨h1, h2, h3⟩ := htruthy t htmem
    simp [toToken, Function.comp, resolveText, resolveOffset, resolveDuration,
      pyOrStr, pyOrNat, toRawCap, h1, h2, h3]
  have hidL : (toks.map toRawLow).map toToken = toks := by
    rw [List.map_map]
    conv_rhs => rw [show toks = toks.map id from (List.map_id toks).symm]
    apply List.map_congr_left
    intro t htmem
    simp [toToken, Function.comp, resolveText, resolveOffset, resolveDuration,
      pyOrStr, pyOrNat, toRawLow]
  rw [build_groups_raw_ok split_characters _ hresC,
    build_groups_raw_ok split_characters _ hresL, hidC, hidL]

/-- C2 witness: a truthy token rendered under both conventions. -/
theorem conventions_agree_on_truthy_witness :
    (∀ t ∈ ([⟨"Hi!", 100, 300⟩] : List Token),
      t.text ≠ "" ∧ t.offset ≠ 0 ∧ t.duration ≠ 0) ∧
      build_groups_raw ['!'] (([⟨"Hi!", 100, 300⟩] : List Token).map toRawCap) =
        build_groups_raw ['!'] (([⟨"Hi!", 100, 300⟩] : List Token).map toRawLow) :=
  ⟨by decide, conventions_agree_on_truthy ['!'] _ (by decide)⟩

/-- Digits below the base render as digit characters. -/
theorem digitChar_isDigit (d : Nat) (h : d < 10) : (Nat.digitChar d).isDigit = true := by
  interval_cases d <;> decide

/-- Reading back the digit character gives the digit. -/
theorem digitVal_digitChar (d : Nat) (h : d < 10) : digitVal (Nat.digitChar d) = d := by
  interval_cases d <;> decide

/-- All characters of `natDigits` are digits. -/
theorem natDigits_all_digits (n : Nat) : ∀ c ∈ natDigits n, c.isDigit = true := by
  intro c hc
  unfold natDigits at hc
  obtain ⟨d, hd, hdc⟩ := List.mem_map.mp hc
  rw [← hdc]
  exact digitChar_isDigit d (Nat.digits_lt_base (by norm_num) (List.mem_reverse.mp hd))

/-- All characters of a zero-padded digit string are digits. -/
theorem padZeros_all_digits (w n : Nat) : ∀ c ∈ padZeros w (natDigits n), c.isDigit = true := by
  intro c hc
  rcases List.mem_append.mp hc with h | h
  · rw [List.eq_of_mem_replicate h]
    decide
  · exact natDigits_all_digits n c h

/-- A padded digit string of positive width is never empty. -/
theorem padZeros_ne_nil (w : Nat) (hw : 0 < w) (l : List Char) : padZeros w l ≠ [] := by
  unfold padZeros
  intro h
  rcases List.append_eq_nil.mp h with ⟨h1, h2⟩
  subst h2
  rw [List.replicate_eq_nil_iff] at h1
  simp at h1
  omega

/-- Folding digit characters from zeros leaves the accumulator at zero. -/
theorem foldl_digit_replicate_zero (k : Nat) :
    List.foldl (fun a c => 10 * a + digitVal c) 0 (List.replicate k '0') = 0 := by
  induction k with
  | zero => rfl
  | succ k ih =>
    rw [List.replicate_succ, List.foldl_cons]
    have h0 : 10 * 0 + digitVal '0' = 0 := by decide
    rw [h0]
    exact ih

/-- Folding the reversed digit expansion evaluates it in base ten. -/
theorem foldl_digits_rev (l : List Nat) (h : ∀ d ∈ l, d < 10) :
    ∀ a : Nat, List.foldl (fun a c => 10 * a + digitVal c) a (l.reverse.map Nat.digitChar)
      = a * 10 ^ l.length + Nat.ofDigits 10 l := by
  induction l with
  | nil => intro a; simp
  | cons d l ih =>
    intro a
    rw [List.reverse_cons, List.map_append, List.foldl_append]
    rw [ih (fun x hx => h x (List.mem_cons_of_mem _ hx)) a]
    have hd := digitVal_digitChar d (h d (List.mem_cons_self _ _))
    simp only [List.map_cons, List.map_nil, List.foldl_cons, List.foldl_nil, hd,
      Nat.ofDigits_cons, List.length_cons]
    ring

/-- `digitsVal` inverts `natDigits`. -/
theorem digitsVal_natDigits (n : Nat) : digitsVal (natDigits n) = n := by
  unfold digitsVal natDigits
  rw [foldl_digits_rev (Nat.digits 10 n) (fun d hd => Nat.digits_lt_base (by norm_num) hd) 0]
  simp [Nat.ofDigits_digits]

/-- `digitsVal` inverts zero-padded `natDigits`. -/
theorem digitsVal_padZeros (w n : Nat) : digitsVal (padZeros w (natDigits n)) = n := by
  unfold digitsVal padZeros
  rw [List.foldl_append, foldl_digit_replicate_zero]
  exact digitsVal_natDigits n

/-- `parseNatAll` inverts `natDigits` on positive numbers. -/
theorem parseNatAll_natDigits (n : Nat) (hn : n ≠ 0) :
    parseNatAll (natDigits n) = some n := by
  unfold parseNatAll
  rw [if_pos]
  · rw [digitsVal_natDigits]
  · refine ⟨?_, List.all_eq_true.mpr (natDigits_all_digits n)⟩
    unfold natDigits
    intro hcontra
    rw [List.map_eq_nil, List.reverse_eq_nil_iff] at hcontra
    exact Nat.digits_ne_nil_iff_ne_zero.mpr hn hcontra

/-- Splitting a digit prefix off a list that continues with a non-digit. -/
theorem span_digits (ds rest : List Char) (hds : ∀ c ∈ ds, c.isDigit = true)
    (hrest : ∀ c, rest.head? = some c → c.isDigit = false) :
    (ds ++ rest).takeWhile Char.isDigit = ds ∧
      (ds ++ rest).dropWhile Char.isDigit = rest := by
  have htake : rest.takeWhile Char.isDigit = [] := by
    cases rest with
    | nil => rfl
    | cons c cs => rw [List.takeWhile_cons, if_neg (by simp [hrest c rfl])]
  have hdrop : rest.dropWhile Char.isDigit = rest := by
    cases rest with
    | nil => rfl
    | cons c cs => rw [List.dropWhile_cons, if_neg (by simp [hrest c rfl])]
  constructor
  · rw [List.takeWhile_append_of_pos hds, htake, List.append_nil]
  · rw [List.dropWhile_append_of_pos hds, hdrop]

/-- What follows a colon continuation is not a digit at its head. -/
theorem head_colon_not_digit (x : List Char) :
    ∀ c, ((':' :: x).head? = some c) → c.isDigit = false := by
  intro c h
  rw [List.head?_cons] at h
  injection h with h2
  subst h2
  decide

/-- What follows a comma continuation is not a digit at its head. -/
theorem head_comma_not_digit (x : List Char) :
    ∀ c, ((',' :: x).head? = some c) → c.isDigit = false := by
  intro c h
  rw [List.head?_cons] at h
  injection h with h2
  subst h2
  decide

/-- Reading a composed timestamp off the front of a character list recovers
the millisecond value, provided what follows does not begin with a digit. -/
theorem readTimestamp_srtTimestamp (ms : Nat) (rest : List Char)
    (hrest : ∀ c, rest.head? = some c → c.isDigit = false) :
    readTimestamp (srtTimestamp ms ++ rest) = some (ms, rest) := by
  have harg : srtTimestamp ms ++ rest
      = padZeros 2 (natDigits (ms / 3600000)) ++ ':' ::
        (padZeros 2 (natDigits (ms % 3600000 / 60000)) ++ ':' ::
          (padZeros 2 (natDigits (ms % 60000 / 1000)) ++ ',' ::
            (padZeros 3 (natDigits (ms % 1000)) ++ rest))) := by
    unfold srtTimestamp
    simp [List.append_assoc]
  obtain ⟨ht1, hd1⟩ := span_digits (padZeros 2 (natDigits (ms / 3600000)))
    (':' :: (padZeros 2 (natDigits (ms % 3600000 / 60000)) ++ ':' ::
      (padZeros 2 (natDigits (ms % 60000 / 1000)) ++ ',' ::
        (padZeros 3 (natDigits (ms % 1000)) ++ rest))))
    (padZeros_all_digits _ _) (head_colon_not_digit _)
  obtain ⟨ht2, hd2⟩ := span_digits (padZeros 2 (natDigits (ms % 3600000 / 60000)))
    (':' :: (padZeros 2 (natDigits (ms % 60000 / 1000)) ++ ',' ::
      (padZeros 3 (natDigits (ms % 1000)) ++ rest)))
    (padZeros_all_digits _ _) (head_colon_not_digit _)
  obtain ⟨ht3, hd3⟩ := span_digits (padZeros 2 (natDigits (ms % 60000 / 1000)))
    (',' :: (padZeros 3 (natDigits (ms % 1000)) ++ rest))
    (padZeros_all_digits _ _) (head_comma_not_digit _)
  obtain ⟨ht4, hd4⟩ := span_digits (padZeros 3 (natDigits (ms % 1000))) rest
    (padZeros_all_digits _ _) hrest
  have hne2 := padZeros_ne_nil 2 (by norm_num)
  have hne3 := padZeros_ne_nil 3 (by norm_num)
  rw [harg]
  simp only [readTimestamp]
  simp [ht1, hd1, ht2, hd2, ht3, hd3, ht4, hd4, hne2, hne3, digitsVal_padZeros]
  omega

/-- Parsing the composed timing line recovers both timestamps. -/
theorem parseTiming_srt (s e : Nat) :
    parseTiming (srtTimestamp s ++ ' ' :: '-' :: '-' :: '>' :: ' ' :: srtTimestamp e)
      = some (s, e) := by
  have h1 := readTimestamp_srtTimestamp s (' ' :: '-' :: '-' :: '>' :: ' ' :: srtTimestamp e)
    (by intro c h; rw [List.head?_cons] at h; injection h with h2; subst h2; decide)
  have h2 := readTimestamp_srtTimestamp e [] (by intro c h; simp at h)
  rw [List.append_nil] at h2
  have htake : (' ' :: '-' :: '-' :: '>' :: ' ' :: srtTimestamp e).take 5
      = [' ', '-', '-', '>', ' '] := rfl
  have hdropp : (' ' :: '-' :: '-' :: '>' :: ' ' :: srtTimestamp e).drop 5
      = srtTimestamp e := rfl
  unfold parseTiming
  rw [h1]
  simp [htake, hdropp, h2]

/-- `splitSep` never returns an empty list of segments. -/
theorem splitSep_ne_nil (sep : Char) (l : List Char) : splitSep sep l ≠ [] := by
  induction l with
  | nil => simp [splitSep]
  | cons c cs ih =>
    unfold splitSep
    cases h : splitSep sep cs with
    | nil => simp
    | cons x xs => by_cases hc : c = sep <;> simp [hc]

/-- The cons equation of `splitSep` with the tail result exposed. -/
theorem splitSep_cons_eq (sep c : Char) (cs x : List Char) (xs : List (List Char))
    (h : splitSep sep cs = x :: xs) :
    splitSep sep (c :: cs) = if c = sep then [] :: x :: xs else (c :: x) :: xs := by
  unfold splitSep
  rw [h]

/-- `joinSep` is a left inverse of `splitSep`. -/
theorem joinSep_splitSep (sep : Char) (l : List Char) :
    joinSep sep (splitSep sep l) = l := by
  induction l with
  | nil => rfl
  | cons c cs ih =>
    cases h : splitSep sep cs with
    | nil => exact absurd h (splitSep_ne_nil sep cs)
    | cons x xs =>
      rw [h] at ih
      rw [splitSep_cons_eq sep c cs x xs h]
      by_cases hc : c = sep
      · rw [if_pos hc]
        show [] ++ ((x :: xs).map (fun l2 => sep :: l2)).join = c :: cs
        rw [hc]
        show sep :: (x ++ (xs.map (fun l2 => sep :: l2)).join) = sep :: cs
        congr 1
      · rw [if_neg hc]
        show (c :: x) ++ (xs.map (fun l2 => sep :: l2)).join = c :: cs
        show c :: (x ++ (xs.map (fun l2 => sep :: l2)).join) = c :: cs
        congr 1

/-- No segment of `splitSep` contains the separator. -/
theorem mem_splitSep_not_sep (sep : Char) :
    ∀ (l : List Char), ∀ m ∈ splitSep sep l, sep ∉ m := by
  intro l
  induction l with
  | nil =>
    intro m hm
    simp [splitSep] at hm
    subst hm
    simp
  | cons c cs ih =>
    intro m hm
    cases h : splitSep sep cs with
    | nil => exact absurd h (splitSep_ne_nil sep cs)
    | cons x xs =>
      rw [splitSep_cons_eq sep c cs x xs h] at hm
      by_cases hc : c = sep
      · rw [if_pos hc] at hm
        rcases List.mem_cons.mp hm with h1 | h1
        · subst h1; simp
        · exact ih m (by rw [h]; exact h1)
      · rw [if_neg hc] at hm
        rcases List.mem_cons.mp hm with h1 | h1
        · subst h1
          intro hmem
          rcases List.mem_cons.mp hmem with h2 | h2
          · exact hc h2.symm
          · exact ih x (by rw [h]; exact List.mem_cons_self x xs) h2
        · exact ih m (by rw [h]; exact List.mem_cons_of_mem x h1)

/-- `splitSep` severs at an explicit separator after a separator-free prefix. -/
theorem splitSep_append_cons (sep : Char) (l rest : List Char) (hl : sep ∉ l) :
    splitSep sep (l ++ sep :: rest) = l :: splitSep sep rest := by
  induction l with
  | nil =>
    rw [List.nil_append]
    cases h : splitSep sep rest with
    | nil => exact absurd h (splitSep_ne_nil sep rest)
    | cons x xs =>
      rw [splitSep_cons_eq sep sep rest x xs h, if_pos rfl]
  | cons c l ih =>
    have hc : c ≠ sep := fun hceq => hl (hceq ▸ List.mem_cons_self c l)
    rw [List.cons_append]
    have hmid := ih (fun hmem => hl (List.mem_cons_of_mem c hmem))
    rw [splitSep_cons_eq sep c (l ++ sep :: rest) l (splitSep sep rest) hmid, if_neg hc]

/-- Splitting the newline-joined lines recovers the lines, plus the residue
of the final newline. -/
theorem splitSep_joinLines (ls : List (List Char)) (h : ∀ l ∈ ls, ('\n' : Char) ∉ l) :
    splitSep '\n' (joinLines ls) = ls ++ [[]] := by
  induction ls with
  | nil => rfl
  | cons l ls ih =>
    have hjoin : joinLines (l :: ls) = l ++ '\n' :: joinLines ls := by
      unfold joinLines
      simp [List.append_assoc]
    rw [hjoin, splitSep_append_cons '\n' l (joinLines ls) (h l (List.mem_cons_self l ls)),
      ih (fun m hm => h m (List.mem_cons_of_mem l hm))]
    rfl

/-- Digit characters are not newlines. -/
theorem digit_ne_newline {c : Char} (h : c.isDigit = true) : ¬ c = '\n' := by
  intro hc
  subst hc
  exact absurd h (by decide)

/-- The timestamp rendering contains no newline. -/
theorem srtTimestamp_no_newline (ms : Nat) : ('\n' : Char) ∉ srtTimestamp ms := by
  intro h
  unfold srtTimestamp at h
  simp only [List.mem_append, List.mem_cons] at h
  rcases h with h | h | h | h | h | h | h
  all_goals first
    | exact digit_ne_newline (padZeros_all_digits _ _ _ h) rfl
    | exact absurd h (by decide)

/-- The timing line contains no newline. -/
theorem timingLine_no_newline (s e : Nat) :
    ('\n' : Char) ∉ srtTimestamp s ++ ' ' :: '-' :: '-' :: '>' :: ' ' :: srtTimestamp e := by
  intro h
  simp only [List.mem_append, List.mem_cons] at h
  rcases h with h | h | h | h | h | h | h
  all_goals first
    | exact srtTimestamp_no_newline _ h
    | exact absurd h (by decide)

/-- Every composed document line is newline-free. -/
theorem docLines_no_newline :
    ∀ (gs : List SubtitleGroup) (i : Nat), ∀ l ∈ docLines i gs, ('\n' : Char) ∉ l := by
  intro gs
  induction gs with
  | nil => intro i l hl; simp [docLines] at hl
  | cons g gs ih =>
    intro i l hl
    unfold docLines at hl
    rcases List.mem_append.mp hl with h | h
    · unfold blockLines at h
      rcases List.mem_cons.mp h with h1 | h1
      · subst h1
        intro hmem
        exact digit_ne_newline (natDigits_all_digits _ _ hmem) rfl
      rcases List.mem_cons.mp h1 with h2 | h2
      · subst h2
        exact timingLine_no_newline _ _
      rcases List.mem_append.mp h2 with h3 | h3
      · exact mem_splitSep_not_sep '\n' _ l h3
      · have hleq : l = [] := by simpa using h3
        subst hleq
        simp
    · exact ih (i + 1) l h

/-- Rebuilding a string from its characters is the identity. -/
theorem mk_data (s : String) : String.mk s.data = s := rfl

/-- Parsing one composed block, with the continuation parse abstracted. -/
theorem parseBlocks_block_aux (i : Nat) (g : SubtitleGroup) (restLines : List (List Char))
    (hwf : ∀ l ∈ splitSep '\n' g.text.data, l ≠ [])
    (r : Option (List SrtRecord)) (hr : parseBlocks restLines = r) :
    parseBlocks (blockLines i g ++ restLines) =
      r.map (fun recs => ⟨i + 1, g.start, g.end_ms, g.text⟩ :: recs) := by
  have hidx := parseNatAll_natDigits (i + 1) (by omega)
  have htl := parseTiming_srt g.start g.end_ms
  have htxt_all : ∀ l ∈ splitSep '\n' g.text.data, (!l.isEmpty) = true := by
    intro l hl
    cases l with
    | nil => exact absurd rfl (hwf [] hl)
    | cons a as => rfl
  have hnil_take : (([] : List Char) :: restLines).takeWhile (fun l => !l.isEmpty) = [] := by
    rw [List.takeWhile_cons]
    simp
  have hnil_drop : (([] : List Char) :: restLines).dropWhile (fun l => !l.isEmpty)
      = [] :: restLines := by
    rw [List.dropWhile_cons]
    simp
  have htake : (splitSep '\n' g.text.data ++ ([] :: restLines)).takeWhile
      (fun l => !l.isEmpty) = splitSep '\n' g.text.data := by
    rw [List.takeWhile_append_of_pos htxt_all, hnil_take, List.append_nil]
  have hdropw : (splitSep '\n' g.text.data ++ ([] :: restLines)).dropWhile
      (fun l => !l.isEmpty) = [] :: restLines := by
    rw [List.dropWhile_append_of_pos htxt_all, hnil_drop]
  have harg : blockLines i g ++ restLines
      = natDigits (i + 1) ::
        (srtTimestamp g.start ++ ' ' :: '-' :: '-' :: '>' :: ' ' :: srtTimestamp g.end_ms) ::
        (splitSep '\n' g.text.data ++ ([] :: restLines)) := by
    unfold blockLines
    simp [List.append_assoc]
  rw [harg]
  unfold parseBlocks
  simp only [hidx, htl, htake, hdropw]
  rw [if_neg (splitSep_ne_nil '\n' g.text.data)]
  simp only [joinSep_splitSep, mk_data]
  split
  next rest2 heq =>
    rw [hdropw] at heq
    injection heq with h1 h2
    subst h2
    rw [hr]
    cases r with
    | none => rfl
    | some recs => rfl
  next heq =>
    exfalso
    exact heq restLines (by rw [hdropw])

/-- Parsing one composed block off the front of the remaining lines yields
its record and continues with the rest. -/
theorem parseBlocks_block (i : Nat) (g : SubtitleGroup) (restLines : List (List Char))
    (hwf : ∀ l ∈ splitSep '\n' g.text.data, l ≠ []) :
    parseBlocks (blockLines i g ++ restLines) =
      (parseBlocks restLines).map
        (fun recs => ⟨i + 1, g.start, g.end_ms, g.text⟩ :: recs) :=
  parseBlocks_block_aux i g restLines hwf _ rfl

/-- Parsing all composed blocks yields the records with sequential indices. -/
theorem parseBlocks_docLines :
    ∀ (gs : List SubtitleGroup),
      (∀ g ∈ gs, ∀ l ∈ splitSep '\n' g.text.data, l ≠ []) →
      ∀ i, parseBlocks (docLines i gs ++ [[]]) = some (indexedRecs i gs) := by
  intro gs
  induction gs with
  | nil =>
    intro _ i
    show parseBlocks ([] ++ [[]]) = some []
    rw [List.nil_append]
    unfold parseBlocks
    rw [if_pos rfl]
  | cons g gs ih =>
    intro hwf i
    have harg : docLines i (g :: gs) ++ [[]]
        = blockLines i g ++ (docLines (i + 1) gs ++ [[]]) := by
      rw [show docLines i (g :: gs) = blockLines i g ++ docLines (i + 1) gs from rfl,
        List.append_assoc]
    rw [harg, parseBlocks_block i g _ (hwf g (List.mem_cons_self g gs)),
      ih (fun g2 h2 => hwf g2 (List.mem_cons_of_mem g h2)) (i + 1)]
    rfl

/-- The round-trip indices are sequential, 1-based from the given origin. -/
theorem indexedRecs_idx (gs : List SubtitleGroup) :
    ∀ i, (indexedRecs i gs).map SrtRecord.idx = List.range' (i + 1) gs.length := by
  induction gs with
  | nil => intro i; rfl
  | cons g gs ih =>
    intro i
    show (i + 1) :: (indexedRecs (i + 1) gs).map SrtRecord.idx
      = List.range' (i + 1) (gs.length + 1)
    rw [ih (i + 1), List.range'_succ]

/-- The round-trip records carry exactly the groups' fields, in order. -/
theorem indexedRecs_fields (gs : List SubtitleGroup) :
    ∀ i, (indexedRecs i gs).map (fun r => (r.startMs, r.endMs, r.content))
      = gs.map (fun g => (g.start, g.end_ms, g.text)) := by
  induction gs with
  | nil => intro i; rfl
  | cons g gs ih =>
    intro i
    show (g.start, g.end_ms, g.text) ::
        (indexedRecs (i + 1) gs).map (fun r => (r.startMs, r.endMs, r.content))
      = (g.start, g.end_ms, g.text) :: gs.map (fun g => (g.start, g.end_ms, g.text))
    rw [ih (i + 1)]

/-- C8: parsing the document `save_subs` writes reproduces the record
sequence: for every group list whose texts are free of embedded blank lines
(every newline-split segment non-empty — which also rules out empty text, as
the data model's trimmed non-empty texts do), the parse succeeds and yields
the records in input order, with gapless 1-based indices and the groups'
exact times and texts. -/
theorem save_subs_round_trip (groups : List SubtitleGroup)
    (hwf : ∀ g ∈ groups, ∀ l ∈ splitSep '\n' g.text.data, l ≠ []) :
    parseDoc (composeDoc groups) = some (indexedRecs 0 groups) ∧
      (indexedRecs 0 groups).map SrtRecord.idx = List.range' 1 groups.length ∧
      (indexedRecs 0 groups).map (fun r => (r.startMs, r.endMs, r.content))
        = groups.map (fun g => (g.start, g.end_ms, g.text)) := by
  refine ⟨?_, indexedRecs_idx groups 0, indexedRecs_fields groups 0⟩
  unfold parseDoc composeDoc
  rw [show (String.mk (joinLines (docLines 0 groups))).data
    = joinLines (docLines 0 groups) from rfl]
  rw [splitSep_joinLines (docLines 0 groups) (docLines_no_newline groups 0)]
  exact parseBlocks_docLines groups hwf 0

/-- C8 witness: the two Scenario B groups round-trip through the writer. -/
theorem save_subs_round_trip_witness :
    (∀ g ∈ [(⟨"Hithere!", 0, 800⟩ : SubtitleGroup), ⟨"Bye", 800, 1000⟩],
      ∀ l ∈ splitSep '\n' g.text.data, l ≠ []) ∧
      (parseDoc (composeDoc [⟨"Hithere!", 0, 800⟩, ⟨"Bye", 800, 1000⟩]) =
        some (indexedRecs 0 [⟨"Hithere!", 0, 800⟩, ⟨"Bye", 800, 1000⟩]) ∧
        (indexedRecs 0 [(⟨"Hithere!", 0, 800⟩ : SubtitleGroup),
          ⟨"Bye", 800, 1000⟩]).map SrtRecord.idx =
          List.range' 1 ([(⟨"Hithere!", 0, 800⟩ : SubtitleGroup), ⟨"Bye", 800, 1000⟩]).length ∧
        (indexedRecs 0 [(⟨"Hithere!", 0, 800⟩ : SubtitleGroup),
          ⟨"Bye", 800, 1000⟩]).map (fun r => (r.startMs, r.endMs, r.content))
          = [(⟨"Hithere!", 0, 800⟩ : SubtitleGroup), ⟨"Bye", 800, 1000⟩].map
            (fun g => (g.start, g.end_ms, g.text))) :=
  ⟨by decide, save_subs_round_trip [⟨"Hithere!", 0, 800⟩, ⟨"Bye", 800, 1000⟩] (by decide)⟩

/-- C9: the empty token sequence yields the empty group sequence — with no
exception, under both raw and resolved views — and the writer emits the empty
document, which parses back to zero records. -/
theorem empty_input_empty_doc (split_characters : List Char) :
    build_groups_raw split_characters [] = .ok [] ∧
      build_groups split_characters [] = [] ∧
      composeDoc [] = "" ∧
      parseDoc "" = some [] := by
  refine ⟨rfl, rfl, rfl, ?_⟩
  show parseBlocks (splitSep '\n' ("".data)) = some []
  rw [show splitSep '\n' ("".data) = [[]] from rfl]
  unfold parseBlocks
  rw [if_pos rfl]
